import Mathlib

/-!
# ZeroLag: the circular-buffer / transform pipeline of `ZeroLagAudioProcessor::processBlock`

A shallow embedding of `Source/PluginProcessor.cpp`.

* C++ `int` values are integers; every `int` addition of the source is followed by `wrapInt`,
  the reduction to the 32-bit two's complement range, so a statement that needs the absence of
  signed overflow says so in a hypothesis.
* `juce::AudioBuffer<float>` is a sample accessor indexed by channel and sample position
  together with its dimensions.  The sample type is a parameter `α` with a zero: the block
  path only copies samples and stores `0.0f`.
* `juce::dsp::FFT` is an external library object; its `perform` is carried by the processor
  as an uninterpreted function on the interleaved buffer.
* The MIDI buffer and `juce::ScopedNoDenormals` play no part in the data flow and are left out.
-/

namespace ZeroLag

/-! ## Machine integers -/

/-- Reduction of an integer to the range of a 32-bit two's complement `int`. -/
def wrapInt (x : Int) : Int := (x + 2147483648) % 4294967296 - 2147483648

/-- Largest value of a C++ `int`. -/
def INT_MAX : Int := 2147483647

/-- Smallest value of a C++ `int`. -/
def INT_MIN : Int := -2147483648

/-! ## Constants of the missing header -/

/-- Modelled from the spec: the header `PluginProcessor.h` that declares `fftSize` is not among
the sources; the spec gives the frame/transform size `C = 512` (FFT order 9 in the
constructor). -/
def fftSize : Int := 512

/-- Modelled from the spec: the header `PluginProcessor.h` that declares `shiftSize` is not
among the sources; the spec gives the hop size `64`. -/
def shiftSize : Int := 64

/-! ## `juce::AudioBuffer` -/

/-- A multi-channel sample buffer: `data channel index` is the sample stored at `index` of
`channel`, and the two sizes are those given when the buffer was sized.  Accesses are not
bounds-checked, as in a release build of the library. -/
structure AudioBuffer (α : Type) where
  numChannels : Nat
  numSamples : Nat
  data : Int → Int → α

namespace AudioBuffer

variable {α : Type}

/-- The call `buffer.getNumSamples()`. -/
def getNumSamples (b : AudioBuffer α) : Int := (b.numSamples : Int)

/-- The call `buffer.getSample (channel, index)`. -/
def getSample (b : AudioBuffer α) (channel index : Int) : α := b.data channel index

/-- The call `buffer.setSample (channel, index, value)`. -/
def setSample (b : AudioBuffer α) (channel index : Int) (value : α) : AudioBuffer α :=
  { b with data := fun ch i => if ch = channel ∧ i = index then value else b.data ch i }

/-- The call `buffer.clear (channel, startSample, numSamples)`: zero a region of one channel. -/
def clear [Zero α] (b : AudioBuffer α) (channel startSample numSamples : Int) : AudioBuffer α :=
  { b with data := fun ch i =>
      if ch = channel ∧ startSample ≤ i ∧ i < startSample + numSamples then 0 else b.data ch i }

/-- The call `buffer.getWritePointer (channel)`: the row of one channel, indexed from 0. -/
def getWritePointer (b : AudioBuffer α) (channel : Int) : Int → α := fun i => b.data channel i

end AudioBuffer

/-- A counted loop `for (int i = lo; i < hi; ++i) body`, threading the loop state. -/
def forLoop {σ : Type} (lo hi : Int) (body : Int → σ → σ) (init : σ) : σ :=
  (List.range (hi - lo).toNat).foldl (fun st (k : Nat) => body (lo + (k : Int)) st) init

/-! ## The processor -/

/-- Modelled from the spec: the member declarations are in the header `PluginProcessor.h`,
which is not among the sources.  The fields are those `processBlock` reads or writes:
`writePointer` and `count` are taken as `int`, like the locals they are copied to and the
`int` block length added to them; `fftBuffer` is the interleaved real/imaginary storage;
`circularBuffer` is a `juce::AudioBuffer`.  `forwardFFT` and `inverseFFT` stand for
`juce::dsp::FFT::perform (input, output, inverse)` called in place on the interleaved buffer;
`totalNumInputChannels` and `totalNumOutputChannels` are the values the host's bus layout
gives to `getTotalNumInputChannels ()` and `getTotalNumOutputChannels ()`. -/
structure ZeroLagAudioProcessor (α : Type) where
  totalNumInputChannels : Int
  totalNumOutputChannels : Int
  forwardFFT : (Int → α) → Bool → (Int → α)
  inverseFFT : (Int → α) → Bool → (Int → α)
  circularBuffer : AudioBuffer α
  fftBuffer : Int → α
  writePointer : Int
  count : Int

variable {α : Type}

/-- Lines 150-151: clear the output channels that have no input data. -/
def clearOutputs [Zero α] (p : ZeroLagAudioProcessor α) (buffer : AudioBuffer α) :
    AudioBuffer α :=
  forLoop p.totalNumInputChannels p.totalNumOutputChannels
    (fun i b => b.clear i 0 b.getNumSamples) buffer

/-- Lines 166-170: copy the samples of one channel of the block into the ring buffer, from
`startWritePos` on, wrapping the position with the mask `fftSize - 1`.  Returns the ring
buffer and the final `currentWritePos`. -/
def writeChannel (circ : AudioBuffer α) (channel startWritePos : Int) (channelData : Int → α)
    (numSamples : Int) : AudioBuffer α × Int :=
  forLoop 0 numSamples
    (fun i st =>
      let circ1 := st.1.setSample channel st.2 (channelData i)
      let currentWritePos := wrapInt (st.2 + 1)
      (circ1, Int.land currentWritePos (fftSize - 1)))
    (circ, startWritePos)

/-- Lines 160-171: the channel loop of the ingestion. -/
def writeBlock (circ : AudioBuffer α) (totalNumInputChannels startWritePos : Int)
    (buffer : AudioBuffer α) : AudioBuffer α :=
  forLoop 0 totalNumInputChannels
    (fun channel c =>
      (writeChannel c channel startWritePos (buffer.getWritePointer channel)
        buffer.getNumSamples).1)
    circ

/-- Lines 180-187: build the interleaved complex frame of one channel in `fftBuffer`, reading
the ring buffer from `writePointer` on.  The loop variable `sample` is `2 * k`. -/
def assembleFrame [Zero α] (circ : AudioBuffer α) (channel writePointer : Int)
    (fftBuffer : Int → α) : (Int → α) × Int :=
  forLoop 0 fftSize
    (fun k st =>
      let sample := 2 * k
      let buf1 := Function.update st.1 sample (circ.getSample channel st.2)
      let buf2 := Function.update buf1 (wrapInt (sample + 1)) 0
      let fftPos := wrapInt (st.2 + 1)
      (buf2, Int.land fftPos (fftSize - 1)))
    (fftBuffer, writePointer)

/-- Lines 179-193: for every input channel, assemble the frame and run the forward and the
inverse transform in place. -/
def transformStage [Zero α] (p : ZeroLagAudioProcessor α) (circ : AudioBuffer α)
    (writePointer : Int) : Int → α :=
  forLoop 0 p.totalNumInputChannels
    (fun channel buf =>
      let frame := (assembleFrame circ channel writePointer buf).1
      p.inverseFFT (p.forwardFFT frame false) true)
    p.fftBuffer

/-- The value of `count` tested by the `if` of line 178, after the statement
`count += buffer.getNumSamples()` of line 175. -/
def countAfterAdd [Zero α] (p : ZeroLagAudioProcessor α) (buffer : AudioBuffer α) : Int :=
  wrapInt (p.count + (clearOutputs p buffer).getNumSamples)

/-- The condition of line 178, `count >= shiftSize && count > fftSize`, on the incremented
counter: whether this call runs the transform. -/
def transformFires [Zero α] (p : ZeroLagAudioProcessor α) (buffer : AudioBuffer α) : Bool :=
  decide (shiftSize ≤ countAfterAdd p buffer ∧ fftSize < countAfterAdd p buffer)

/-- `ZeroLagAudioProcessor::processBlock`: the processor and the host buffer after the call.
The statement `count == 0;` of line 194 is a comparison whose value is discarded, so the
branch leaves `count` as it is. -/
def processBlock [Zero α] (p : ZeroLagAudioProcessor α) (buffer : AudioBuffer α) :
    ZeroLagAudioProcessor α × AudioBuffer α :=
  let buffer1 := clearOutputs p buffer
  let startWritePos := p.writePointer
  let circ := writeBlock p.circularBuffer p.totalNumInputChannels startWritePos buffer1
  let writePointer := Int.land (wrapInt (startWritePos + buffer1.getNumSamples)) (fftSize - 1)
  let count := wrapInt (p.count + buffer1.getNumSamples)
  if shiftSize ≤ count ∧ fftSize < count then
    ({ p with
        circularBuffer := circ
        writePointer := writePointer
        count := count
        fftBuffer := transformStage p circ writePointer }, buffer1)
  else
    ({ p with circularBuffer := circ, writePointer := writePointer, count := count }, buffer1)

/-- The processor after a sequence of `processBlock` calls. -/
def runBlocks [Zero α] (p : ZeroLagAudioProcessor α) :
    List (AudioBuffer α) → ZeroLagAudioProcessor α
  | [] => p
  | b :: bs => runBlocks (processBlock p b).1 bs

/-- For each call of a sequence, whether it ran the transform. -/
def triggerTrace [Zero α] (p : ZeroLagAudioProcessor α) : List (AudioBuffer α) → List Bool
  | [] => []
  | b :: bs => transformFires p b :: triggerTrace (processBlock p b).1 bs

/-- Number of calls of a sequence that ran the transform. -/
def triggerCount [Zero α] (p : ZeroLagAudioProcessor α) (bs : List (AudioBuffer α)) : Nat :=
  (triggerTrace p bs).count true

/-- Total number of samples per channel delivered by a sequence of blocks. -/
def totalSamples (bs : List (AudioBuffer α)) : Int :=
  (bs.map (fun b => b.getNumSamples)).sum

/-- Samples of one channel delivered by a sequence of blocks, in chronological order. -/
def history (channel : Int) (bs : List (AudioBuffer α)) : List α :=
  bs.flatMap (fun b => (List.range b.numSamples).map (fun (i : Nat) => b.getSample channel (i : Int)))

/-- The ring invariant of one channel row against the samples `h` written to it so far: each
of the last `fftSize` samples of `h` is stored at its index modulo the capacity. -/
def RingInv (row : Int → α) (h : List α) : Prop :=
  ∀ i : Nat, i < h.length → h.length ≤ i + 512 → h[i]? = some (row ((i : Int) % 512))

/-- Modelled from the spec: the member initialisers are in the missing header; the state in
which streaming starts has `writePointer = 0` and `count = 0`, nothing ingested yet. -/
def IsInitial (p : ZeroLagAudioProcessor α) : Prop := p.writePointer = 0 ∧ p.count = 0

/-! ## Concrete scenarios -/

/-- A mono processor in its initial state, over integer samples, with a cleared ring buffer
and transforms that leave the buffer as it is. -/
def monoProcessor : ZeroLagAudioProcessor Int where
  totalNumInputChannels := 1
  totalNumOutputChannels := 1
  forwardFFT := fun buf _ => buf
  inverseFFT := fun buf _ => buf
  circularBuffer := { numChannels := 1, numSamples := 512, data := fun _ _ => 0 }
  fftBuffer := fun _ => 0
  writePointer := 0
  count := 0

/-- A mono block of `n` samples, all zero except a unit impulse at sample 0 when `impulse`
is set. -/
def monoBlock (n : Nat) (impulse : Bool) : AudioBuffer Int where
  numChannels := 1
  numSamples := n
  data := fun _ i => if impulse ∧ i = 0 then 1 else 0

/-- Ten blocks of 64 mono samples carrying a unit impulse at sample 0 of the stream. -/
def impulseRun : List (AudioBuffer Int) :=
  monoBlock 64 true :: List.replicate 9 (monoBlock 64 false)

/-- The mono processor with a second output channel that has no input. -/
def monoInStereoOutProcessor : ZeroLagAudioProcessor Int :=
  { monoProcessor with totalNumOutputChannels := 2 }

/-- A block of two channels of 64 samples, every sample equal to 1. -/
def onesBlock : AudioBuffer Int where
  numChannels := 2
  numSamples := 64
  data := fun _ _ => 1

/-- The mono processor 2147483600 samples into a stream: the counter is 48 below the top of
the `int` range and the write pointer is `2147483600 mod 512 = 464`. -/
def lateProcessor : ZeroLagAudioProcessor Int :=
  { monoProcessor with writePointer := 464, count := 2147483600 }

/-- Two mono blocks totalling `2 ^ 31` samples: 1024 samples, then 2147482624 samples. -/
def longRun : List (AudioBuffer Int) :=
  [monoBlock 1024 false, monoBlock 2147482624 false]

/-! ## Mask and wrap arithmetic -/

theorem land_mask_nat (n : Nat) : Int.land (n : Int) 511 = ((n % 512 : Nat) : Int) := by
  have h : Int.land (n : Int) ((511 : Nat) : Int) = ((n &&& 511 : Nat) : Int) := rfl
  have h2 : n &&& 511 = n % 512 := Nat.and_pow_two_sub_one_eq_mod n 9
  rw [h2] at h
  exact h

theorem ldiff_mask (m : Nat) : Nat.ldiff 511 m = 511 - m % 512 := by
  apply Nat.eq_of_testBit_eq
  intro i
  have hlt : m % 2 ^ 9 < 2 ^ 9 := Nat.mod_lt _ (by norm_num)
  have h1 := Nat.testBit_two_pow_sub_succ hlt i
  have h2 : 2 ^ 9 - (m % 2 ^ 9 + 1) = 511 - m % 512 := by norm_num; omega
  rw [h2] at h1
  rw [h1, Nat.testBit_ldiff, Nat.testBit_mod_two_pow]
  have h3 : Nat.testBit 511 i = decide (i < 9) := Nat.testBit_two_pow_sub_one 9 i
  rw [h3]
  cases decide (i < 9) <;> simp

theorem land_mask (x : Int) : Int.land x 511 = x % 512 := by
  cases x with
  | ofNat n =>
    have h := land_mask_nat n
    simpa using h
  | negSucc m =>
    have h : Int.land (Int.negSucc m) ((511 : Nat) : Int) = ((Nat.ldiff 511 m : Nat) : Int) := rfl
    have h2 := ldiff_mask m
    have h3 := Int.negSucc_emod m (show (0 : Int) < 512 by norm_num)
    rw [h2] at h
    have h4 : m % 512 < 512 := Nat.mod_lt _ (by norm_num)
    rw [h3]
    have h5 : Int.land (Int.negSucc m) 511 = ((511 - m % 512 : Nat) : Int) := h
    rw [h5]
    omega

theorem wrapInt_emod (x : Int) : wrapInt x % 512 = x % 512 := by
  unfold wrapInt
  omega

theorem wrapInt_eq (x : Int) (h1 : INT_MIN ≤ x) (h2 : x ≤ INT_MAX) : wrapInt x = x := by
  unfold wrapInt INT_MIN INT_MAX at *
  omega

/-- The masked increment used for ring positions is the increment modulo the capacity. -/
theorem mask_step (x y : Int) : Int.land (wrapInt (x + y)) (fftSize - 1) = (x + y) % 512 := by
  have h : fftSize - 1 = 511 := by decide
  rw [h, land_mask, wrapInt_emod]


/-! ## Loops -/

theorem foldl_range_invariant {σ : Type} (P : Nat → σ → Prop) (f : σ → Nat → σ) (init : σ)
    (n : Nat) (h0 : P 0 init) (hstep : ∀ k st, k < n → P k st → P (k + 1) (f st k)) :
    P n ((List.range n).foldl f init) := by
  induction n with
  | zero => simpa using h0
  | succ m ih =>
    rw [List.range_succ, List.foldl_append]
    simp only [List.foldl_cons, List.foldl_nil]
    apply hstep m _ (Nat.lt_succ_self m)
    exact ih (fun k st hk hP => hstep k st (Nat.lt_succ_of_lt hk) hP)

/-- Invariant rule for a counted loop: `P k st` relates the state to the number `k` of
iterations done. -/
theorem forLoop_invariant {σ : Type} (P : Nat → σ → Prop) (lo hi : Int) (body : Int → σ → σ)
    (init : σ) (h0 : P 0 init)
    (hstep : ∀ k st, k < (hi - lo).toNat → P k st → P (k + 1) (body (lo + (k : Int)) st)) :
    P (hi - lo).toNat (forLoop lo hi body init) := by
  unfold forLoop
  exact foldl_range_invariant P _ init _ h0 hstep

/-! ## Effect of `processBlock` on the scalar fields -/

theorem clearOutputs_numSamples [Zero α] (p : ZeroLagAudioProcessor α) (buffer : AudioBuffer α) :
    (clearOutputs p buffer).numSamples = buffer.numSamples := by
  unfold clearOutputs
  exact forLoop_invariant (fun _ (b : AudioBuffer α) => b.numSamples = buffer.numSamples)
    _ _ _ _ rfl (fun k st _ h => by simpa [AudioBuffer.clear] using h)

theorem clearOutputs_getNumSamples [Zero α] (p : ZeroLagAudioProcessor α)
    (buffer : AudioBuffer α) :
    (clearOutputs p buffer).getNumSamples = (buffer.numSamples : Int) := by
  simp [AudioBuffer.getNumSamples, clearOutputs_numSamples]

theorem processBlock_count [Zero α] (p : ZeroLagAudioProcessor α) (buffer : AudioBuffer α) :
    (processBlock p buffer).1.count = wrapInt (p.count + (buffer.numSamples : Int)) := by
  unfold processBlock
  simp only [clearOutputs_getNumSamples]
  split <;> rfl

theorem processBlock_writePointer [Zero α] (p : ZeroLagAudioProcessor α)
    (buffer : AudioBuffer α) :
    (processBlock p buffer).1.writePointer = (p.writePointer + (buffer.numSamples : Int)) % 512 := by
  unfold processBlock
  simp only [clearOutputs_getNumSamples]
  split <;> exact mask_step _ _

theorem processBlock_circularBuffer [Zero α] (p : ZeroLagAudioProcessor α)
    (buffer : AudioBuffer α) :
    (processBlock p buffer).1.circularBuffer =
      writeBlock p.circularBuffer p.totalNumInputChannels p.writePointer
        (clearOutputs p buffer) := by
  unfold processBlock
  dsimp only
  split <;> rfl

theorem processBlock_buffer [Zero α] (p : ZeroLagAudioProcessor α) (buffer : AudioBuffer α) :
    (processBlock p buffer).2 = clearOutputs p buffer := by
  unfold processBlock
  dsimp only
  split <;> rfl

theorem processBlock_channels [Zero α] (p : ZeroLagAudioProcessor α) (buffer : AudioBuffer α) :
    (processBlock p buffer).1.totalNumInputChannels = p.totalNumInputChannels ∧
      (processBlock p buffer).1.totalNumOutputChannels = p.totalNumOutputChannels := by
  unfold processBlock
  dsimp only
  split <;> exact ⟨rfl, rfl⟩

theorem transformFires_iff [Zero α] (p : ZeroLagAudioProcessor α) (buffer : AudioBuffer α) :
    transformFires p buffer = true ↔
      (shiftSize ≤ wrapInt (p.count + (buffer.numSamples : Int)) ∧
        fftSize < wrapInt (p.count + (buffer.numSamples : Int))) := by
  simp [transformFires, countAfterAdd, clearOutputs_getNumSamples]

theorem totalSamples_nil : totalSamples ([] : List (AudioBuffer α)) = 0 := rfl

theorem totalSamples_cons (b : AudioBuffer α) (bs : List (AudioBuffer α)) :
    totalSamples (b :: bs) = (b.numSamples : Int) + totalSamples bs := by
  simp [totalSamples, AudioBuffer.getNumSamples]

theorem totalSamples_nonneg (bs : List (AudioBuffer α)) : 0 ≤ totalSamples bs := by
  induction bs with
  | nil => simp [totalSamples_nil]
  | cons b bs ih => rw [totalSamples_cons]; omega

theorem totalSamples_append (bs cs : List (AudioBuffer α)) :
    totalSamples (bs ++ cs) = totalSamples bs + totalSamples cs := by
  simp [totalSamples]

theorem totalSamples_take_le (bs : List (AudioBuffer α)) (i : Nat) :
    totalSamples (bs.take i) ≤ totalSamples bs := by
  have h := totalSamples_append (bs.take i) (bs.drop i)
  rw [List.take_append_drop] at h
  have h2 := totalSamples_nonneg (bs.drop i)
  omega

theorem totalSamples_take_mono (bs : List (AudioBuffer α)) (i j : Nat) (hij : i ≤ j) :
    totalSamples (bs.take i) ≤ totalSamples (bs.take j) := by
  have h := totalSamples_take_le (bs.take j) i
  rwa [List.take_take, Nat.min_eq_left hij] at h

/-- Without signed overflow the counter after a run is the old counter plus everything
ingested. -/
theorem runBlocks_count [Zero α] (bs : List (AudioBuffer α)) (p : ZeroLagAudioProcessor α)
    (hlo : INT_MIN ≤ p.count) (hhi : p.count + totalSamples bs ≤ INT_MAX) :
    (runBlocks p bs).count = p.count + totalSamples bs := by
  induction bs generalizing p with
  | nil => simp [runBlocks, totalSamples_nil]
  | cons b bs ih =>
    rw [totalSamples_cons] at hhi ⊢
    have hnn := totalSamples_nonneg bs
    have hc : (processBlock p b).1.count = p.count + (b.numSamples : Int) := by
      rw [processBlock_count]
      exact wrapInt_eq _ (by omega) (by omega)
    simp only [runBlocks]
    rw [ih _ (by rw [hc]; omega) (by rw [hc]; omega), hc]
    omega

theorem triggerTrace_length [Zero α] (bs : List (AudioBuffer α)) (p : ZeroLagAudioProcessor α) :
    (triggerTrace p bs).length = bs.length := by
  induction bs generalizing p with
  | nil => rfl
  | cons b bs ih => simp [triggerTrace, ih]

/-- Entry `i` of the trace is the trigger test of call `i`, made in the state reached after
the first `i` calls. -/
theorem triggerTrace_getElem [Zero α] (bs : List (AudioBuffer α)) (p : ZeroLagAudioProcessor α)
    (i : Nat) :
    (triggerTrace p bs)[i]? =
      (bs[i]?).map (fun b => transformFires (runBlocks p (bs.take i)) b) := by
  induction bs generalizing p i with
  | nil => simp [triggerTrace]
  | cons b bs ih =>
    cases i with
    | zero => simp [triggerTrace, runBlocks]
    | succ n => simp [triggerTrace, runBlocks, ih]

theorem take_succ_total (bs : List (AudioBuffer α)) (i : Nat) (hi : i < bs.length) :
    totalSamples (bs.take (i + 1)) = totalSamples (bs.take i) + ((bs[i]).numSamples : Int) := by
  rw [List.take_succ, totalSamples_append]
  simp [List.getElem?_eq_getElem hi, totalSamples, AudioBuffer.getNumSamples]

/-- In a run from `count = 0` that stays within the `int` range, call `i` runs the transform
exactly when the samples ingested up to and including its block exceed `fftSize`; the range
condition is on that prefix only. -/
theorem trace_iff_total [Zero α] (bs : List (AudioBuffer α)) (p : ZeroLagAudioProcessor α)
    (hcount : p.count = 0) (i : Nat) (hi : i < bs.length)
    (hrange : totalSamples (bs.take (i + 1)) ≤ INT_MAX) :
    (triggerTrace p bs)[i]? = some (decide (fftSize < totalSamples (bs.take (i + 1)))) := by
  rw [triggerTrace_getElem, List.getElem?_eq_getElem hi]
  simp only [Option.map_some', Option.some.injEq]
  have h2 := totalSamples_take_mono bs i (i + 1) (Nat.le_succ i)
  have h3 := totalSamples_nonneg (bs.take i)
  have h4 := take_succ_total bs i hi
  have hI : INT_MAX = 2147483647 := rfl
  have hm : INT_MIN = -2147483648 := rfl
  have hc : (runBlocks p (bs.take i)).count = totalSamples (bs.take i) := by
    rw [runBlocks_count _ _ (by rw [hcount, hm]; omega) (by rw [hcount]; omega), hcount]
    omega
  have hw : wrapInt ((runBlocks p (bs.take i)).count + ((bs[i]).numSamples : Int)) =
      totalSamples (bs.take (i + 1)) := by
    rw [hc, ← h4]
    exact wrapInt_eq _ (by rw [hm]; omega) (by omega)
  have hiff := transformFires_iff (runBlocks p (bs.take i)) bs[i]
  rw [hw] at hiff
  have hs : shiftSize = 64 := rfl
  have hf : fftSize = 512 := rfl
  rw [Bool.eq_iff_iff, hiff]
  simp only [decide_eq_true_eq]
  constructor
  · exact fun h => h.2
  · intro h
    exact ⟨by rw [hs]; rw [hf] at h; omega, h⟩

theorem processBlock_writePointer_mask [Zero α] (p : ZeroLagAudioProcessor α)
    (buffer : AudioBuffer α) :
    (processBlock p buffer).1.writePointer =
      Int.land (wrapInt (p.writePointer + (buffer.numSamples : Int))) (fftSize - 1) := by
  unfold processBlock
  simp only [clearOutputs_getNumSamples]
  split <;> rfl

/-- A call that runs the transform returns with the counter still above `fftSize`. -/
theorem count_after_trigger [Zero α] (p : ZeroLagAudioProcessor α) (buffer : AudioBuffer α)
    (h : transformFires p buffer = true) : fftSize < (processBlock p buffer).1.count := by
  rw [processBlock_count]
  exact ((transformFires_iff p buffer).mp h).2

theorem totalSamples_const (bs : List (AudioBuffer α)) (n : Nat)
    (h : ∀ b ∈ bs, b.numSamples = n) : totalSamples bs = (n : Int) * (bs.length : Int) := by
  induction bs with
  | nil => simp [totalSamples_nil]
  | cons b bs ih =>
    rw [totalSamples_cons, ih (fun c hc => h c (List.mem_cons_of_mem _ hc)),
      h b (List.mem_cons_self _ _)]
    simp only [List.length_cons]
    push_cast
    ring

/-! ## The host buffer -/

/-- Samples of the host buffer after the clearing loop of lines 150-151. -/
theorem clearOutputs_data [Zero α] (p : ZeroLagAudioProcessor α) (buffer : AudioBuffer α)
    (ch i : Int) :
    (clearOutputs p buffer).data ch i =
      if p.totalNumInputChannels ≤ ch ∧ ch < p.totalNumOutputChannels ∧ 0 ≤ i ∧
          i < (buffer.numSamples : Int) then 0
      else buffer.data ch i := by
  have key := forLoop_invariant
    (fun (k : Nat) (st : AudioBuffer α) =>
      st.numSamples = buffer.numSamples ∧
        ∀ c j, st.data c j =
          if p.totalNumInputChannels ≤ c ∧ c < p.totalNumInputChannels + (k : Int) ∧ 0 ≤ j ∧
              j < (buffer.numSamples : Int) then 0
          else buffer.data c j)
    p.totalNumInputChannels p.totalNumOutputChannels
    (fun i b => b.clear i 0 b.getNumSamples) buffer
    ⟨rfl, fun c j => by rw [if_neg]; omega⟩
    (by
      intro k st _ hP
      obtain ⟨hn, hd⟩ := hP
      refine ⟨by simpa [AudioBuffer.clear] using hn, ?_⟩
      intro c j
      simp only [AudioBuffer.clear, AudioBuffer.getNumSamples, hn, hd c j]
      split_ifs <;> first | rfl | (exfalso; omega))
  have hd := key.2 ch i
  unfold clearOutputs
  rw [hd]
  split_ifs <;> first | rfl | (exfalso; omega)

theorem clearOutputs_numChannels [Zero α] (p : ZeroLagAudioProcessor α)
    (buffer : AudioBuffer α) :
    (clearOutputs p buffer).numChannels = buffer.numChannels := by
  unfold clearOutputs
  exact forLoop_invariant (fun _ (b : AudioBuffer α) => b.numChannels = buffer.numChannels)
    _ _ _ _ rfl (fun k st _ h => by simpa [AudioBuffer.clear] using h)

/-! ## Frame assembly -/

theorem ringInv_nil (row : Int → α) : RingInv row [] := by
  intro i hi
  exact absurd hi (Nat.not_lt_zero i)

theorem ringInv_congr (row1 row2 : Int → α) (h : List α) (heq : ∀ i, row2 i = row1 i)
    (hinv : RingInv row1 h) : RingInv row2 h := by
  intro i hi hle
  rw [heq]
  exact hinv i hi hle

/-- Storing one more sample at the position `length mod capacity` keeps the ring invariant. -/
theorem ringInv_push (row1 row2 : Int → α) (h : List α) (x : α)
    (hrow : ∀ i, row2 i = if i = (h.length : Int) % 512 then x else row1 i)
    (hinv : RingInv row1 h) : RingInv row2 (h ++ [x]) := by
  intro i hi hle
  simp only [List.length_append, List.length_singleton] at hi hle
  rw [hrow]
  by_cases hlast : i = h.length
  · subst hlast
    rw [if_pos rfl]
    simp
  · have hlt : i < h.length := by omega
    rw [if_neg (by omega), List.getElem?_append_left hlt]
    exact hinv i hlt (by omega)

/-- The sample loop of one channel (lines 166-170) appends the block to the history held by
that channel's row and leaves the other rows alone. -/
theorem writeChannel_spec (circ : AudioBuffer α) (channel startWritePos : Int)
    (channelData : Int → α) (n : Nat) (h : List α)
    (hstart : startWritePos = (h.length : Int) % 512) (hinv : RingInv (circ.data channel) h) :
    RingInv ((writeChannel circ channel startWritePos channelData (n : Int)).1.data channel)
        (h ++ (List.range n).map (fun (i : Nat) => channelData (i : Int))) ∧
      (∀ c, c ≠ channel → ∀ i,
        (writeChannel circ channel startWritePos channelData (n : Int)).1.data c i =
          circ.data c i) := by
  have key := forLoop_invariant
    (fun (k : Nat) (st : AudioBuffer α × Int) =>
      st.2 = ((h.length : Int) + (k : Int)) % 512 ∧
        RingInv (st.1.data channel) (h ++ (List.range k).map (fun (i : Nat) => channelData (i : Int))) ∧
        (∀ c, c ≠ channel → ∀ i, st.1.data c i = circ.data c i))
    0 (n : Int)
    (fun i st =>
      let circ1 := st.1.setSample channel st.2 (channelData i)
      let currentWritePos := wrapInt (st.2 + 1)
      (circ1, Int.land currentWritePos (fftSize - 1)))
    (circ, startWritePos)
    ⟨by rw [hstart]; simp, by simpa using hinv, fun _ _ _ => rfl⟩
    (by
      intro k st _ hP
      obtain ⟨hpos, hring, hother⟩ := hP
      dsimp only
      rw [mask_step]
      refine ⟨by rw [hpos]; push_cast; omega, ?_, ?_⟩
      · rw [List.range_succ, List.map_append, ← List.append_assoc]
        simp only [List.map_cons, List.map_nil]
        apply ringInv_push (st.1.data channel) _ _ _ _ hring
        intro i
        simp only [AudioBuffer.setSample, List.length_append, List.length_map, List.length_range,
          true_and, hpos]
        push_cast
        have hz : (0 : Int) + (k : Int) = (k : Int) := by omega
        rw [hz]
      · intro c hc i
        simp only [AudioBuffer.setSample]
        rw [if_neg (fun hh => hc hh.1)]
        exact hother c hc i)
  have hn : ((n : Int) - 0).toNat = n := by omega
  rw [hn] at key
  unfold writeChannel
  exact ⟨key.2.1, key.2.2⟩

/-- The channel loop of the ingestion (lines 160-171): every input channel's row receives
that channel's block, all from the same start position. -/
theorem writeBlock_spec (circ : AudioBuffer α) (totalNumInputChannels startWritePos : Int)
    (buffer : AudioBuffer α) (H : Int → List α) (L : Nat)
    (hlen : ∀ c, 0 ≤ c → c < totalNumInputChannels → (H c).length = L)
    (hstart : startWritePos = (L : Int) % 512)
    (hinv : ∀ c, 0 ≤ c → c < totalNumInputChannels → RingInv (circ.data c) (H c)) :
    ∀ c, 0 ≤ c → c < totalNumInputChannels →
      RingInv ((writeBlock circ totalNumInputChannels startWritePos buffer).data c)
        (H c ++ (List.range buffer.numSamples).map (fun (i : Nat) => buffer.data c (i : Int))) := by
  have key := forLoop_invariant
    (fun (k : Nat) (st : AudioBuffer α) =>
      (∀ c, 0 ≤ c → c < (k : Int) →
        RingInv (st.data c)
          (H c ++ (List.range buffer.numSamples).map (fun (i : Nat) => buffer.data c (i : Int)))) ∧
        (∀ c, (k : Int) ≤ c → ∀ i, st.data c i = circ.data c i))
    0 totalNumInputChannels
    (fun channel c =>
      (writeChannel c channel startWritePos (buffer.getWritePointer channel)
        buffer.getNumSamples).1)
    circ
    ⟨fun c h0 hk => by omega, fun _ _ _ => rfl⟩
    (by
      intro k st hk hP
      obtain ⟨hdone, htodo⟩ := hP
      have hz : (0 : Int) + (k : Int) = (k : Int) := by omega
      rw [hz]
      have hkin : (k : Int) < totalNumInputChannels := by omega
      have hk0 : (0 : Int) ≤ (k : Int) := by omega
      have hrow : RingInv (st.data (k : Int)) (H (k : Int)) :=
        ringInv_congr _ _ _ (htodo (k : Int) (le_refl _)) (hinv (k : Int) hk0 hkin)
      have hs := writeChannel_spec st (k : Int) startWritePos
        (buffer.getWritePointer (k : Int)) buffer.numSamples (H (k : Int))
        (by rw [hlen (k : Int) hk0 hkin]; exact hstart) hrow
      refine ⟨?_, ?_⟩
      · intro c hc0 hck
        by_cases hceq : c = (k : Int)
        · subst hceq
          exact hs.1
        · exact ringInv_congr _ _ _ (hs.2 c hceq) (hdone c hc0 (by push_cast at hck; omega))
      · intro c hck i
        have hne : c ≠ (k : Int) := by push_cast at hck; omega
        have h1 := hs.2 c hne i
        simp only [AudioBuffer.getNumSamples]
        rw [h1]
        exact htodo c (by push_cast at hck; omega) i)
  intro c hc0 hc
  unfold writeBlock
  exact key.1 c hc0 (by omega)

theorem history_cons (channel : Int) (b : AudioBuffer α) (bs : List (AudioBuffer α)) :
    history channel (b :: bs) =
      (List.range b.numSamples).map (fun (i : Nat) => b.getSample channel (i : Int)) ++
        history channel bs := by
  simp [history]

theorem history_length (channel : Int) (bs : List (AudioBuffer α)) :
    ((history channel bs).length : Int) = totalSamples bs := by
  induction bs with
  | nil => simp [history, totalSamples_nil]
  | cons b bs ih =>
    rw [history_cons, totalSamples_cons, List.length_append, List.length_map, List.length_range]
    push_cast
    rw [ih]

theorem runBlocks_totalNumInputChannels [Zero α] (bs : List (AudioBuffer α))
    (p : ZeroLagAudioProcessor α) :
    (runBlocks p bs).totalNumInputChannels = p.totalNumInputChannels := by
  induction bs generalizing p with
  | nil => rfl
  | cons b bs ih =>
    simp only [runBlocks]
    rw [ih, (processBlock_channels p b).1]

/-- One `processBlock` call extends the ring invariant of every input channel by that
channel's samples of the host block. -/
theorem processBlock_ring [Zero α] (p : ZeroLagAudioProcessor α) (b : AudioBuffer α)
    (H : Int → List α) (L : Nat)
    (hlen : ∀ c, 0 ≤ c → c < p.totalNumInputChannels → (H c).length = L)
    (hwp : p.writePointer = (L : Int) % 512)
    (hinv : ∀ c, 0 ≤ c → c < p.totalNumInputChannels → RingInv (p.circularBuffer.data c) (H c)) :
    ∀ c, 0 ≤ c → c < p.totalNumInputChannels →
      RingInv ((processBlock p b).1.circularBuffer.data c)
        (H c ++ (List.range b.numSamples).map (fun (i : Nat) => b.getSample c (i : Int))) := by
  intro c hc0 hc
  have h := writeBlock_spec p.circularBuffer p.totalNumInputChannels p.writePointer
    (clearOutputs p b) H L hlen hwp hinv c hc0 hc
  rw [processBlock_circularBuffer]
  rw [clearOutputs_numSamples] at h
  have hmap : (List.range b.numSamples).map (fun (i : Nat) => (clearOutputs p b).data c (i : Int))
      = (List.range b.numSamples).map (fun (i : Nat) => b.getSample c (i : Int)) := by
    apply List.map_congr_left
    intro i _
    rw [clearOutputs_data, if_neg (by omega)]
    rfl
  rw [hmap] at h
  exact h

/-- After a run, the write pointer has advanced by the total ingested modulo the capacity and
every input channel's row satisfies the ring invariant for its extended history. -/
theorem runBlocks_ring [Zero α] (bs : List (AudioBuffer α)) (p : ZeroLagAudioProcessor α)
    (H : Int → List α) (L : Nat)
    (hlen : ∀ c, 0 ≤ c → c < p.totalNumInputChannels → (H c).length = L)
    (hwp : p.writePointer = (L : Int) % 512)
    (hinv : ∀ c, 0 ≤ c → c < p.totalNumInputChannels → RingInv (p.circularBuffer.data c) (H c)) :
    (runBlocks p bs).writePointer = ((L : Int) + totalSamples bs) % 512 ∧
      ∀ c, 0 ≤ c → c < p.totalNumInputChannels →
        RingInv ((runBlocks p bs).circularBuffer.data c) (H c ++ history c bs) := by
  induction bs generalizing p H L with
  | nil =>
    refine ⟨by simp [runBlocks, totalSamples_nil, hwp], ?_⟩
    intro c hc0 hc
    simpa [runBlocks, history] using hinv c hc0 hc
  | cons b bs ih =>
    have hchan := (processBlock_channels p b).1
    have hstep := processBlock_ring p b H L hlen hwp hinv
    have hwp1 : (processBlock p b).1.writePointer = ((L + b.numSamples : Nat) : Int) % 512 := by
      rw [processBlock_writePointer, hwp]
      push_cast
      omega
    have hrec := ih (processBlock p b).1
      (fun c => H c ++ (List.range b.numSamples).map (fun (i : Nat) => b.getSample c (i : Int)))
      (L + b.numSamples)
      (by
        intro c hc0 hc
        rw [hchan] at hc
        rw [List.length_append, List.length_map, List.length_range, hlen c hc0 hc])
      hwp1
      (by
        intro c hc0 hc
        rw [hchan] at hc
        exact hstep c hc0 hc)
    simp only [runBlocks]
    refine ⟨?_, ?_⟩
    · rw [hrec.1, totalSamples_cons]
      push_cast
      omega
    · intro c hc0 hc
      have h := hrec.2 c hc0 (by rw [hchan]; exact hc)
      rw [history_cons, ← List.append_assoc]
      exact h

/-! ## The claims -/

/-- C1, evaluated on the code: from the state reached after eight mono blocks of 64 samples
(`count = 512`), the ninth block of 64 samples runs the transform and `processBlock` returns
with `count = 576`, not 0: the statement `count == 0;` changes nothing. -/
theorem counter_reset_missing :
    transformFires (runBlocks monoProcessor (impulseRun.take 8)) (monoBlock 64 false) = true ∧
      (processBlock (runBlocks monoProcessor (impulseRun.take 8)) (monoBlock 64 false)).1.count
        = 576 := by
  decide

/-- C2, evaluated on the code: with eighteen mono blocks of 32 samples from the initial state,
the calls at 544 and at 576 ingested samples both run the transform, so the transform runs
twice within one hop of 64 samples. -/
theorem hop_cadence_every_block :
    triggerTrace monoProcessor (List.replicate 18 (monoBlock 32 false)) =
      List.replicate 16 false ++ [true, true] := by
  decide

/-- C3: in every sequence of `processBlock` calls from a state with `count = 0`, a call up to
and including which at most `fftSize = 512` samples have been ingested does not run the
transform, whatever the value of the hop counter. -/
theorem cold_start_no_trigger [Zero α] (p : ZeroLagAudioProcessor α) (bs : List (AudioBuffer α))
    (hcount : p.count = 0) (i : Nat) (hi : i < bs.length)
    (htotal : totalSamples (bs.take (i + 1)) ≤ fftSize) :
    (triggerTrace p bs)[i]? = some false := by
  have hf : fftSize = 512 := rfl
  have hI : INT_MAX = 2147483647 := rfl
  rw [trace_iff_total bs p hcount i hi (by rw [hf] at htotal; rw [hI]; omega)]
  simp only [Option.some.injEq, decide_eq_false_iff_not]
  omega

/-- Witness of C3 on the impulse run: the eighth call brings the total to exactly 512 samples,
the hop counter is 512 (at least `shiftSize`), and the call does not run the transform. -/
theorem cold_start_no_trigger_witness :
    shiftSize ≤ countAfterAdd (runBlocks monoProcessor (impulseRun.take 7)) (monoBlock 64 false) ∧
      (triggerTrace monoProcessor impulseRun)[7]? = some false :=
  ⟨by decide,
    cold_start_no_trigger monoProcessor impulseRun rfl 7 (by decide) (by decide)⟩

/-- C5 as stated fails: on ten mono blocks of 64 samples with a unit impulse at sample 0 the
number of calls that run the transform is not `640 / 64 - ⌈512 / 64⌉ + 1 = 3`. -/
theorem end_to_end_not_three :
    640 / 64 - (512 + 63) / 64 + 1 = 3 ∧ triggerCount monoProcessor impulseRun ≠ 3 := by
  decide

/-- The trigger trace of the code as written on ten blocks of 64 samples from `count = 0`. -/
theorem trace_ten_blocks_of_64 [Zero α] (p : ZeroLagAudioProcessor α)
    (bs : List (AudioBuffer α)) (hcount : p.count = 0) (hlen : bs.length = 10)
    (h64 : ∀ b ∈ bs, b.numSamples = 64) :
    triggerTrace p bs = [false, false, false, false, false, false, false, false, true, true] := by
  apply List.ext_getElem?
  intro i
  by_cases hi : i < bs.length
  · have htot : totalSamples (bs.take (i + 1)) = 64 * ((i : Int) + 1) := by
      rw [totalSamples_const (bs.take (i + 1)) 64
        (fun b hb => h64 b (List.mem_of_mem_take hb))]
      simp only [List.length_take]
      rw [Nat.min_eq_left (by omega)]
      push_cast
      ring
    have hI : INT_MAX = 2147483647 := rfl
    have hf : fftSize = 512 := rfl
    rw [trace_iff_total bs p hcount i hi (by rw [htot, hI]; omega), htot, hf]
    rw [hlen] at hi
    interval_cases i <;> simp
  · have h1 : (triggerTrace p bs)[i]? = none := by
      rw [List.getElem?_eq_none_iff, triggerTrace_length]
      omega
    rw [h1, hlen] at *
    symm
    rw [List.getElem?_eq_none_iff]
    simp only [List.length_cons, List.length_nil]
    omega

/-- C5 amended: for ten blocks of 64 samples each fed to a processor with `count = 0`,
whatever the samples and the channel layout, none of the first eight calls runs the
transform and the ninth call, the first at which `count` exceeds 512, runs it; so the
transform runs at least once and at most twice across the run.  Nothing is said about the
tenth call. -/
theorem end_to_end_first_trigger [Zero α] (p : ZeroLagAudioProcessor α)
    (bs : List (AudioBuffer α)) (hcount : p.count = 0) (hlen : bs.length = 10)
    (h64 : ∀ b ∈ bs, b.numSamples = 64) :
    (∀ i, i < 8 → (triggerTrace p bs)[i]? = some false) ∧
      (triggerTrace p bs)[8]? = some true ∧
      1 ≤ triggerCount p bs ∧ triggerCount p bs ≤ 2 := by
  have htrace := trace_ten_blocks_of_64 p bs hcount hlen h64
  unfold triggerCount
  rw [htrace]
  refine ⟨?_, by decide, by decide, by decide⟩
  intro i hi
  interval_cases i <;> rfl

/-- Witness of the amended C5 on the impulse run of the scenario. -/
theorem end_to_end_first_trigger_witness :
    (triggerTrace monoProcessor impulseRun)[7]? = some false ∧
      (triggerTrace monoProcessor impulseRun)[8]? = some true ∧
      1 ≤ triggerCount monoProcessor impulseRun ∧ triggerCount monoProcessor impulseRun ≤ 2 :=
  have h := end_to_end_first_trigger monoProcessor impulseRun rfl (by decide) (by decide)
  ⟨h.1 7 (by decide), h.2⟩

/-- C6 as stated fails for the counter: in the state 2147483600 samples into a stream
(`writePointer = 464`, inside `[0, fftSize)`), a block of 64 samples takes `count` past the
top of the `int` range; the counter tested by line 178 and returned by `processBlock` is
`-2147483632`, not `count + 64`, and the call does not run the transform. -/
theorem counter_add_wraps :
    0 ≤ lateProcessor.writePointer ∧ lateProcessor.writePointer < fftSize ∧
      countAfterAdd lateProcessor (monoBlock 64 false) = -2147483632 ∧
      (processBlock lateProcessor (monoBlock 64 false)).1.count = -2147483632 ∧
      countAfterAdd lateProcessor (monoBlock 64 false) ≠ lateProcessor.count + 64 ∧
      transformFires lateProcessor (monoBlock 64 false) = false := by
  decide

/-- C6 amended: after `processBlock` on a block of `N` samples the write pointer is the masked
sum `(writePointer + N) & (fftSize - 1)`, which equals `(writePointer + N) mod fftSize` and lies
in `[0, fftSize)`; this holds for every old write pointer, in particular for those in
`[0, fftSize)`.  When `count + N` does not leave the `int` range, the counter tested by the
trigger condition, which is also the counter `processBlock` returns, is the old counter plus
`N`, and the call runs the transform exactly when that sum is at least `shiftSize` and above
`fftSize`. -/
theorem write_pointer_invariant [Zero α] (p : ZeroLagAudioProcessor α) (buffer : AudioBuffer α) :
    (processBlock p buffer).1.writePointer =
        Int.land (wrapInt (p.writePointer + (buffer.numSamples : Int))) (fftSize - 1) ∧
      (processBlock p buffer).1.writePointer =
        (p.writePointer + (buffer.numSamples : Int)) % fftSize ∧
      0 ≤ (processBlock p buffer).1.writePointer ∧
      (processBlock p buffer).1.writePointer < fftSize ∧
      (INT_MIN ≤ p.count → p.count + (buffer.numSamples : Int) ≤ INT_MAX →
        countAfterAdd p buffer = p.count + (buffer.numSamples : Int) ∧
          (processBlock p buffer).1.count = p.count + (buffer.numSamples : Int) ∧
          (transformFires p buffer = true ↔
            (shiftSize ≤ p.count + (buffer.numSamples : Int) ∧
              fftSize < p.count + (buffer.numSamples : Int)))) := by
  have hf : fftSize = 512 := rfl
  have hwp := processBlock_writePointer p buffer
  refine ⟨processBlock_writePointer_mask p buffer, by rw [hf]; exact hwp, ?_, ?_, ?_⟩
  · rw [hwp]; omega
  · rw [hwp, hf]; omega
  · intro hlo hhi
    have hw : wrapInt (p.count + (buffer.numSamples : Int)) =
        p.count + (buffer.numSamples : Int) := wrapInt_eq _ (by omega) hhi
    refine ⟨?_, ?_, ?_⟩
    · rw [countAfterAdd, clearOutputs_getNumSamples, hw]
    · rw [processBlock_count, hw]
    · rw [transformFires_iff, hw]

/-- Witness of the amended C6: a block of 64 samples fed to the mono processor after seven
blocks (`writePointer = 448`, `count = 448`); the counter tested and returned is `448 + 64`. -/
theorem write_pointer_invariant_witness :
    countAfterAdd (runBlocks monoProcessor (impulseRun.take 7)) (monoBlock 64 false) =
        (runBlocks monoProcessor (impulseRun.take 7)).count + 64 ∧
      (processBlock (runBlocks monoProcessor (impulseRun.take 7)) (monoBlock 64 false)).1.count =
        (runBlocks monoProcessor (impulseRun.take 7)).count + 64 :=
  have h := (write_pointer_invariant (runBlocks monoProcessor (impulseRun.take 7))
    (monoBlock 64 false)).2.2.2.2 (by decide) (by decide)
  ⟨h.1, h.2.1⟩

/-- C9 as stated fails: from the initial state, a block of 1024 samples runs the transform
(`count = 1024`); a following block of 2147482624 samples brings the total to `2 ^ 31`, the
`int` counter wraps to `-2147483648`, below its previous value, and that call does not run
the transform. -/
theorem hop_counter_wraps :
    (triggerTrace monoProcessor longRun)[0]? = some true ∧
      (triggerTrace monoProcessor longRun)[1]? = some false ∧
      (runBlocks monoProcessor (longRun.take 1)).count = 1024 ∧
      (runBlocks monoProcessor longRun).count = -2147483648 := by
  decide

/-- C9 amended: in a run from `count = 0` whose total stays within the `int` range, no call
decreases `count`, and once a call has run the transform every later call runs it too,
whatever its block length. -/
theorem hop_counter_monotone [Zero α] (p : ZeroLagAudioProcessor α) (bs : List (AudioBuffer α))
    (hcount : p.count = 0) (hrange : totalSamples bs ≤ INT_MAX) :
    (∀ i, i < bs.length →
        (runBlocks p (bs.take i)).count ≤ (runBlocks p (bs.take (i + 1))).count) ∧
      (∀ i j, i ≤ j → j < bs.length →
        (triggerTrace p bs)[i]? = some true → (triggerTrace p bs)[j]? = some true) := by
  have hm : INT_MIN = -2147483648 := rfl
  have hcnt : ∀ k, (runBlocks p (bs.take k)).count = totalSamples (bs.take k) := by
    intro k
    have h1 := totalSamples_take_le bs k
    have h2 := totalSamples_nonneg (bs.take k)
    rw [runBlocks_count _ _ (by rw [hcount, hm]; omega) (by rw [hcount]; omega), hcount]
    omega
  constructor
  · intro i _
    rw [hcnt, hcnt]
    exact totalSamples_take_mono bs i (i + 1) (Nat.le_succ i)
  · intro i j hij hj hi
    have hle := totalSamples_take_mono bs (i + 1) (j + 1) (by omega)
    have hj1 := totalSamples_take_le bs (j + 1)
    have hi1 := totalSamples_take_le bs (i + 1)
    rw [trace_iff_total bs p hcount i (by omega) (by omega)] at hi
    rw [trace_iff_total bs p hcount j hj (by omega)]
    simp only [Option.some.injEq, decide_eq_true_eq] at hi ⊢
    omega

/-- Witness of C9 on the impulse run followed by a block of one sample and an empty block:
the ninth call runs the transform, and so does the twelfth. -/
theorem hop_counter_monotone_witness :
    (triggerTrace monoProcessor (impulseRun ++ [monoBlock 1 false, monoBlock 0 false]))[8]?
        = some true ∧
      (triggerTrace monoProcessor (impulseRun ++ [monoBlock 1 false, monoBlock 0 false]))[11]?
        = some true :=
  ⟨by decide,
    (hop_counter_monotone monoProcessor (impulseRun ++ [monoBlock 1 false, monoBlock 0 false])
      rfl (by decide)).2 8 11 (by decide) (by decide) (by decide)⟩

/-- C4: after any sequence of blocks totalling more than `fftSize = 512` samples, fed from the
initial state, reading an input channel's row at the `fftSize` wrapped positions
`(writePointer - fftSize + j) mod fftSize`, `j = 0 .. fftSize - 1`, yields the last `fftSize`
samples delivered on that channel, oldest first; the blocks may have any lengths and the ring
may hold anything at the start.  `history channel bs` lists the samples delivered on the
channel; its length is the total. -/
theorem wrap_around_last_frame [Zero α] (p : ZeroLagAudioProcessor α)
    (bs : List (AudioBuffer α)) (channel : Int) (hinit : IsInitial p) (hch0 : 0 ≤ channel)
    (hch : channel < p.totalNumInputChannels) (hk : fftSize < totalSamples bs) :
    ((history channel bs).length : Int) = totalSamples bs ∧
      (List.range 512).map (fun (j : Nat) =>
          (runBlocks p bs).circularBuffer.getSample channel
            (((runBlocks p bs).writePointer - fftSize + (j : Int)) % fftSize)) =
        (history channel bs).drop ((history channel bs).length - 512) := by
  refine ⟨history_length channel bs, ?_⟩
  have hf : fftSize = 512 := rfl
  have hrun := runBlocks_ring bs p (fun _ => []) 0 (fun _ _ _ => rfl)
    (by rw [hinit.1]; rfl) (fun c _ _ => ringInv_nil _)
  obtain ⟨hwp, hring⟩ := hrun
  have hinv := hring channel hch0 hch
  simp only [List.nil_append] at hinv
  have hlen := history_length channel bs
  rw [hf] at hk
  apply List.ext_getElem?
  intro n
  rw [List.getElem?_drop]
  by_cases hn : n < 512
  · rw [List.getElem?_map, List.getElem?_range hn]
    simp only [Option.map_some']
    have hi := hinv ((history channel bs).length - 512 + n) (by omega) (by omega)
    rw [hi, hwp, hf]
    simp only [AudioBuffer.getSample]
    congr 2
    push_cast
    omega
  · rw [List.getElem?_eq_none_iff.mpr (by simp; omega),
      List.getElem?_eq_none_iff.mpr (by omega)]

/-- Witness of C4 on the impulse run (640 samples on the single channel 0). -/
theorem wrap_around_last_frame_witness :
    (List.range 512).map (fun (j : Nat) =>
        (runBlocks monoProcessor impulseRun).circularBuffer.getSample 0
          (((runBlocks monoProcessor impulseRun).writePointer - fftSize + (j : Int)) % fftSize)) =
      (history 0 impulseRun).drop ((history 0 impulseRun).length - 512) :=
  (wrap_around_last_frame monoProcessor impulseRun 0 ⟨rfl, rfl⟩ (by decide) (by decide)
    (by decide)).2

/-- C10: `processBlock` returns the host buffer with every sample of every channel below
`totalNumInputChannels` unchanged, whether or not the transform runs; a sample that differs
from the input lies on a channel in `[totalNumInputChannels, totalNumOutputChannels)` and is
zero, and all samples `[0, numSamples)` of those channels are zero.  The dimensions of the
buffer are unchanged. -/
theorem audio_pass_through [Zero α] (p : ZeroLagAudioProcessor α) (buffer : AudioBuffer α) :
    (∀ ch i : Int, ch < p.totalNumInputChannels →
        (processBlock p buffer).2.getSample ch i = buffer.getSample ch i) ∧
      (∀ ch i : Int, (processBlock p buffer).2.getSample ch i ≠ buffer.getSample ch i →
        p.totalNumInputChannels ≤ ch ∧ ch < p.totalNumOutputChannels ∧
          (processBlock p buffer).2.getSample ch i = 0) ∧
      (∀ ch i : Int, p.totalNumInputChannels ≤ ch → ch < p.totalNumOutputChannels →
        0 ≤ i → i < buffer.getNumSamples → (processBlock p buffer).2.getSample ch i = 0) ∧
      (processBlock p buffer).2.numSamples = buffer.numSamples ∧
      (processBlock p buffer).2.numChannels = buffer.numChannels := by
  rw [processBlock_buffer]
  refine ⟨?_, ?_, ?_, clearOutputs_numSamples p buffer, clearOutputs_numChannels p buffer⟩
  · intro ch i hch
    simp only [AudioBuffer.getSample]
    rw [clearOutputs_data, if_neg (by omega)]
  · intro ch i hne
    simp only [AudioBuffer.getSample] at hne ⊢
    rw [clearOutputs_data] at hne ⊢
    by_cases hc : p.totalNumInputChannels ≤ ch ∧ ch < p.totalNumOutputChannels ∧ 0 ≤ i ∧
        i < (buffer.numSamples : Int)
    · rw [if_pos hc]
      exact ⟨hc.1, hc.2.1, rfl⟩
    · rw [if_neg hc] at hne
      exact absurd rfl hne
  · intro ch i h1 h2 h3 h4
    simp only [AudioBuffer.getSample, AudioBuffer.getNumSamples] at h4 ⊢
    rw [clearOutputs_data, if_pos ⟨h1, h2, h3, h4⟩]

/-- Witness of C10 on a processor with one input and two output channels and a two-channel
block of ones: channel 0 is returned as it was, channel 1 is zeroed. -/
theorem audio_pass_through_witness :
    (processBlock monoInStereoOutProcessor onesBlock).2.getSample 0 5 = onesBlock.getSample 0 5 ∧
      (processBlock monoInStereoOutProcessor onesBlock).2.getSample 1 5 = 0 :=
  ⟨(audio_pass_through monoInStereoOutProcessor onesBlock).1 0 5 (by decide),
    (audio_pass_through monoInStereoOutProcessor onesBlock).2.2.1 1 5 (by decide) (by decide)
      (by decide) (by decide)⟩

end ZeroLag
